import Mathlib

/-!
# Verification of the GitHub analytics engine core

Shallow embedding of the repository's core logic:

* `scripts/utils.py` — `safe_div`, `to_percent`, `ReadmeSection.replace`
  (marker-delimited patching via `re.sub` with a replacement template);
* `scripts/readme_updater.py` — `ReadmeUpdater.update_section`;
* `scripts/github_client.py` — `GitHubClient.paginate`;
* `scripts/analytics.py` — `TIME_BUCKETS`, `bucket_time_of_day`,
  `is_merge_commit`, `aggregate`, and the language-row folding of
  `render_markdown`;
* `scripts/render_cards.py` — the daily-series fill of
  `fetch_daily_contributions`, and `compute_streaks`.

Python strings are modelled as `List Char`, Python ints as `Int` (or `Nat`
where the source value is a count that starts at zero and is only ever
incremented), raised exceptions as `Except`/`Option` error values.
-/

namespace Gh

/-! ## utils.py: the marker-delimited patcher

`ReadmeSection.replace` compiles the regex
`({escaped start}\n)(.*?)(\n{escaped end})` with `re.DOTALL`, searches
`content` for it, raises `ValueError` when there is no match, and otherwise
runs `pattern.sub(rf"\1{new_inner}\3", content, count=1)`.

Because the two markers are passed through `re.escape`, the pattern matches
the literal start marker followed by a newline, then a shortest (non-greedy,
dot-matches-newline) inner text, then a newline followed by the literal end
marker, at the leftmost position where this is possible.  `reSearch` below
implements exactly that backtracking search: at each candidate position it
checks the literal prefix, then looks for the first occurrence of
newline-plus-end-marker in the remainder (the shortest extension of `.*?`),
and on failure moves one character to the right.

The replacement string `rf"\1{new_inner}\3"` is a `re` *template*: `re.sub`
parses backslash escapes in it (group references, octal escapes, character
escapes).  `consumeEscape`/`parseTemplate` model CPython's
`re._parser.parse_template` on the concatenation `\1` ++ `new_inner` ++ `\3`
for a pattern with three groups, so that e.g. a `new_inner` beginning with a
digit merges into the leading `\1` group reference, exactly as in Python.
-/

/-- First occurrence split: `findSplit pat s = some (a, b)` iff
`s = a ++ pat ++ b` with `a` shortest; `none` when `pat` does not occur in
`s`.  This is the search for the shortest extension of the non-greedy `.*?`
group followed by the literal group 3. -/
def findSplit (pat : List Char) : List Char → Option (List Char × List Char)
  | [] => if pat.isEmpty then some ([], []) else none
  | c :: rest =>
    if pat.isPrefixOf (c :: rest) then some ([], (c :: rest).drop pat.length)
    else
      match findSplit pat rest with
      | some (a, b) => some (c :: a, b)
      | none => none

/-- Leftmost-shortest match of the pattern `sm'(.*?)em'` (with `sm'` and
`em'` literal, dot matching newline): returns `(pre, inner, post)` with the
input equal to `pre ++ sm' ++ inner ++ em' ++ post`.  At each position the
regex engine tries to match `sm'` literally and then extend `.*?` minimally
until `em'` matches; if either step fails it retries one character further
right.  (`replace` only calls this with a nonempty `sm'`, so the empty-input
case faithfully reports no match.) -/
def reSearch (sm' em' : List Char) : List Char → Option (List Char × List Char × List Char)
  | [] => none
  | c :: rest =>
    if sm'.isPrefixOf (c :: rest) then
      match findSplit em' ((c :: rest).drop sm'.length) with
      | some (inner, post) => some ([], inner, post)
      | none =>
        match reSearch sm' em' rest with
        | some (p, i, q) => some (c :: p, i, q)
        | none => none
    else
      match reSearch sm' em' rest with
      | some (p, i, q) => some (c :: p, i, q)
      | none => none

/-- The escape table of `re._parser` used in replacement templates:
`\a \b \f \n \r \t \v \\`. -/
def escMap : Char → Option Char
  | 'a' => some (Char.ofNat 7)
  | 'b' => some (Char.ofNat 8)
  | 'f' => some (Char.ofNat 12)
  | 'n' => some '\n'
  | 'r' => some (Char.ofNat 13)
  | 't' => some (Char.ofNat 9)
  | 'v' => some (Char.ofNat 11)
  | '\\' => some '\\'
  | _ => none

def isOct (c : Char) : Bool := '0' ≤ c && c ≤ '7'

def digitVal (c : Char) : Nat := c.toNat - '0'.toNat

/-- Python `str.isidentifier` restricted to ASCII (the only characters our
theorems and counterexamples use): a nonempty string of letters, digits and
underscores not starting with a digit. -/
def isIdent (name : List Char) : Bool :=
  match name with
  | [] => false
  | c :: rest => (c.isAlpha || c = '_') && rest.all (fun d => d.isAlphanum || d = '_')

def isPyWs (c : Char) : Bool :=
  c = ' ' || c = Char.ofNat 9 || c = '\n' || c = Char.ofNat 13 ||
    c = Char.ofNat 11 || c = Char.ofNat 12

/-- Python `int(str)` on the group name inside `\g<...>`: optional
surrounding whitespace, optional sign, then digits with single underscores
allowed between digits. -/
def pyIntOfChars (s : List Char) : Option Int :=
  let s := (s.dropWhile isPyWs).reverse.dropWhile isPyWs |>.reverse
  let (neg, ds) :=
    match s with
    | '-' :: rest => (true, rest)
    | '+' :: rest => (false, rest)
    | _ => (false, s)
  if ds.isEmpty then none
  else if !ds.head!.isDigit || !ds.getLast!.isDigit then none
  else if ds.any (fun c => !c.isDigit && c ≠ '_') then none
  else if (ds.zip (ds.drop 1)).any (fun p => p.1 = '_' && p.2 = '_') then none
  else
    let v : Int := ds.foldl (fun a c => if c = '_' then a else a * 10 + (digitVal c : Int)) 0
    some (if neg then -v else v)

/-- Group lookup for the three-group pattern: group 0 is the whole match. -/
def groupVal (g0 g1 g2 g3 : List Char) : Nat → List Char
  | 0 => g0
  | 1 => g1
  | 2 => g2
  | 3 => g3
  | _ => []

/-- One escape of a replacement template, CPython `parse_template`: input is
the characters after a backslash, output is the emitted characters and how
many input characters were consumed.  Branches, in source order: end of
template; `\g<name>`; `\0` with up to two more octal digits; `\1`–`\99`
group references, where two octal digits followed by a third octal digit
form an octal character escape instead; known character escapes; unknown
escapes, an error for ASCII letters and kept verbatim otherwise. -/
def consumeEscape (g0 g1 g2 g3 : List Char) : List Char → Except String (List Char × Nat)
  | [] => .error "bad escape (end of pattern)"
  | c :: rest =>
    if c = 'g' then
      match rest with
      | '<' :: rest2 =>
        let name := rest2.takeWhile (fun c => c ≠ '>')
        if name.length = rest2.length then .error "missing >, unterminated name"
        else if name.isEmpty then .error "missing group name"
        else if isIdent name then .error "unknown group name"
        else
          match pyIntOfChars name with
          | none => .error "bad character in group name"
          | some v =>
            if v < 0 then .error "bad character in group name"
            else if v > 3 then .error "invalid group reference"
            else .ok (groupVal g0 g1 g2 g3 v.toNat, name.length + 3)
      | _ => .error "missing <"
    else if c = '0' then
      let ds := (rest.takeWhile isOct).take 2
      .ok ([Char.ofNat (ds.foldl (fun a d => a * 8 + digitVal d) 0)], ds.length + 1)
    else if c.isDigit then
      match rest with
      | d2 :: rest2 =>
        if d2.isDigit then
          if isOct c && isOct d2 && (match rest2 with | d3 :: _ => isOct d3 | [] => false) then
            let d3 := rest2.head!
            let v := digitVal c * 64 + digitVal d2 * 8 + digitVal d3
            if v > 255 then .error "octal escape value outside of range 0-0o377"
            else .ok ([Char.ofNat v], 3)
          else
            let idx := digitVal c * 10 + digitVal d2
            if idx > 3 then .error "invalid group reference"
            else .ok (groupVal g0 g1 g2 g3 idx, 2)
        else
          if digitVal c > 3 then .error "invalid group reference"
          else .ok (groupVal g0 g1 g2 g3 (digitVal c), 1)
      | [] =>
        if digitVal c > 3 then .error "invalid group reference"
        else .ok (groupVal g0 g1 g2 g3 (digitVal c), 1)
    else
      match escMap c with
      | some ch => .ok ([ch], 1)
      | none =>
        if c.isAlpha then .error "bad escape"
        else .ok (['\\', c], 1)

/-- Expand a replacement template against the three groups of the marker
pattern: literal characters are copied, backslash escapes are interpreted by
`consumeEscape`.  The recursion is driven by a fuel counter so that it is
structural (and hence kernel-evaluable); every step consumes at least one
input character, so fuel equal to the template length (as supplied by
`parseTemplate`) always suffices and the fuel-exhausted branch is
unreachable. -/
def parseTemplateF (g0 g1 g2 g3 : List Char) : Nat → List Char → Except String (List Char)
  | _, [] => .ok []
  | fuel, c :: rest =>
    match fuel with
    | 0 => .error "fuel exhausted"
    | fuel + 1 =>
      if c = '\\' then
        match consumeEscape g0 g1 g2 g3 rest with
        | .error e => .error e
        | .ok (em, n) =>
          match parseTemplateF g0 g1 g2 g3 fuel (rest.drop n) with
          | .error e => .error e
          | .ok tail => .ok (em ++ tail)
      else
        match parseTemplateF g0 g1 g2 g3 fuel rest with
        | .error e => .error e
        | .ok tail => .ok (c :: tail)

def parseTemplate (g0 g1 g2 g3 t : List Char) : Except String (List Char) :=
  parseTemplateF g0 g1 g2 g3 t.length t

/-- `@dataclass(frozen=True) class ReadmeSection` of `scripts/utils.py`. -/
structure ReadmeSection where
  start_marker : List Char
  end_marker : List Char

def markersNotFoundMsg : String :=
  "README markers not found. Please add start/end markers before running automation."

/-- `ReadmeSection.replace`: search for the marker pattern, raise
`ValueError` (the spec's `MarkersNotFoundError` kind) when absent, else
substitute the first match by the expanded template
`\1` ++ `new_inner` ++ `\3` (`count=1`: everything outside the first match
is copied unchanged). -/
def ReadmeSection.replace (s : ReadmeSection) (content new_inner : List Char) :
    Except String (List Char) :=
  let sm' := s.start_marker ++ ['\n']
  let em' := '\n' :: s.end_marker
  match reSearch sm' em' content with
  | none => .error markersNotFoundMsg
  | some (pre, inner, post) =>
    match parseTemplate (sm' ++ inner ++ em') sm' inner em'
        ('\\' :: '1' :: (new_inner ++ ['\\', '3'])) with
    | .error e => .error e
    | .ok repl => .ok (pre ++ repl ++ post)

/-- Python `str.rstrip("\n")`: drop trailing newline characters. -/
def pyRstripNL (s : List Char) : List Char :=
  ((s.reverse.dropWhile (fun c => c = '\n'))).reverse

/-- `ReadmeUpdater.update_section` of `scripts/readme_updater.py`, with the
file modelled explicitly: the result is the outcome of the call (the change
flag, or the propagated exception) paired with the file content after the
call.  The source reads the file, computes
`replace(content, new_inner_markdown.rstrip("\n"))`, returns `False`
without writing when the result equals the current content, and otherwise
writes the result and returns `True`; an exception from `replace`
propagates before any write. -/
def update_section (s : ReadmeSection) (content new_inner_markdown : List Char) :
    Except String Bool × List Char :=
  match s.replace content (pyRstripNL new_inner_markdown) with
  | .error e => (.error e, content)
  | .ok updated => if updated = content then (.ok false, content) else (.ok true, updated)

/-! ## github_client.py: `GitHubClient.paginate`

The generator requests numbered pages starting at 1.  A response body is
modelled as `Option (List α)`: `none` stands for a JSON body that is not a
list (`isinstance(data, list)` fails).  The loop breaks without yielding
when the body is not a list or is an empty list, and breaks after yielding
when the page is shorter than `per_page`.  The `while True` loop is modelled
with explicit fuel: the theorems only speak about runs that terminate, and
supply enough fuel for the terminating prefix they describe.  Transport
errors from `request` propagate to the caller and are outside this model. -/

def paginate {α : Type} (resp : Nat → Option (List α)) (perPage : Nat) :
    Nat → Nat → List (List α)
  | 0, _ => []
  | fuel + 1, page =>
    match resp page with
    | none => []
    | some data =>
      if data.length = 0 then []
      else if data.length < perPage then [data]
      else data :: paginate resp perPage fuel (page + 1)

/-! ## analytics.py: buckets, merge-commit heuristic, aggregation -/

/-- `TIME_BUCKETS` of `scripts/analytics.py`: name, start hour, end hour. -/
def TIME_BUCKETS : List (String × Nat × Nat) :=
  [("Morning", 6, 12), ("Day", 12, 18), ("Evening", 18, 22), ("Night", 22, 6)]

def WEEKDAYS : List String :=
  ["Monday", "Tuesday", "Wednesday", "Thursday", "Friday", "Saturday", "Sunday"]

/-- The loop body of `bucket_time_of_day`: scan the bucket list; a bucket
with `start < end` matches `start <= hour < end`, a wrap-around bucket
matches `hour >= start or hour < end`; fall through to `"Night"`. -/
def bucketScan (hour : Nat) : List (String × Nat × Nat) → String
  | [] => "Night"
  | (name, s, e) :: rest =>
    if s < e then
      if s ≤ hour ∧ hour < e then name else bucketScan hour rest
    else
      if hour ≥ s ∨ hour < e then name else bucketScan hour rest

/-- `bucket_time_of_day` applied to the hour of the zone-converted local
datetime (`local_dt.hour`, a value in `0..23`). -/
def bucket_time_of_day (hour : Nat) : String :=
  bucketScan hour TIME_BUCKETS

/-- A REST commit object, restricted to the fields `aggregate` reads.
`sha` is `commit_obj.get("sha")` (`none` also covers the falsy empty
string via `shaVal`); `message` is
`commit_obj.get("commit", {}).get("message", "")`; `parents` is the length
of the parents list when one is present; `date` is
`commit.author.date`. -/
structure PyCommit where
  sha : Option String
  message : String
  parents : Option Nat
  date : Option String

/-- `is_merge_commit`: message starts with the literal `"Merge "`, or the
parents list has more than one entry. -/
def is_merge_commit (c : PyCommit) : Bool :=
  c.message.startsWith "Merge " ||
    (match c.parents with
     | some n => decide (n > 1)
     | none => false)

/-- A repository as consumed by the aggregation loop: the fork flag,
`owner.login` and `name`, the outcome of `get_languages` (`none` models a
raised/logged exception, `some` the returned name-to-bytes mapping as an
association list in dict order), and the commit pages the pagination
delivered before ending (normally or by a raised/logged exception). -/
structure PyRepo where
  fork : Bool
  owner : Option String
  name : Option String
  langs : Option (List (String × Int))
  commitPages : List (List PyCommit)

/-- The two `Config` flags the aggregation loop reads. -/
structure AggCfg where
  excludeForks : Bool
  excludeMergeCommits : Bool

/-- The mutable state of `aggregate`: `total_commits`, the two `Counter`s
(modelled as functions from key to count; the counters are initialised with
the four bucket keys and seven weekday keys at zero, and a `Counter` reads
zero at any other key as well, so the zero function is the faithful initial
value), `lang_bytes` (a `defaultdict(int)` in insertion order), and the
`seen_shas` set (a list; an element is appended only when absent, so its
length is the set's size). -/
structure AggState where
  total : Nat
  tod : String → Nat
  weekday : String → Nat
  langBytes : List (String × Int)
  seen : List String

def initAggState : AggState :=
  ⟨0, fun _ => 0, fun _ => 0, [], []⟩

/-- Truthiness of an optional string: Python's `if not sha` / `if not
date_str` treats both a missing key and an empty string as falsy. -/
def strVal (s : Option String) : Option String :=
  match s with
  | some v => if v = "" then none else some v
  | none => none

/-- Point update of a counter. -/
def bump (f : String → Nat) (k : String) : String → Nat :=
  fun x => if x = k then f x + 1 else f x

/-- `lang_bytes[lang] += int(b)` on a `defaultdict(int)` kept in insertion
order. -/
def addLang (m : List (String × Int)) (lang : String) (b : Int) : List (String × Int) :=
  match m with
  | [] => [(lang, b)]
  | (k, v) :: rest => if k = lang then (k, v + b) :: rest else (k, v) :: addLang rest lang b

/-- The zone conversion applied to one commit's author date: the composition
`parse_utc_timestamp(date_str).astimezone(tz)` of `datetime.strptime` and
the `pytz` zone arithmetic, an external collaborator of the aggregation
core.  It is passed in as a capability returning the local hour and the
local weekday index (`datetime.weekday()`, Monday = 0); `none` models a
raised parse error (`strptime` raises `ValueError` on a malformed string),
which the per-repository `except` block catches. -/
def LocalizeFn := String → Option (Nat × Fin 7)

/-- One iteration of the inner commit loop.  Returns the new state and a
flag telling whether an exception was raised (aborting the rest of this
repository's commit pages).  Note the source order: the sha is added to
`seen_shas` *before* the timestamp is parsed, so a malformed date leaves
the sha marked seen without any counter increment. -/
def processCommit (cfg : AggCfg) (localize : LocalizeFn) (st : AggState) (c : PyCommit) :
    AggState × Bool :=
  match strVal c.sha with
  | none => (st, false)
  | some sha =>
    if st.seen.contains sha then (st, false)
    else if cfg.excludeMergeCommits && is_merge_commit c then (st, false)
    else
      match strVal c.date with
      | none => (st, false)
      | some ds =>
        let st1 : AggState :=
          { st with seen := sha :: st.seen }
        match localize ds with
        | none => (st1, true)
        | some (hour, wd) =>
          ({ st1 with
              total := st1.total + 1
              tod := bump st1.tod (bucket_time_of_day hour)
              weekday := bump st1.weekday (WEEKDAYS.get wd) }, false)

/-- Process the commits of one page, stopping at a raised exception. -/
def processPage (cfg : AggCfg) (localize : LocalizeFn) :
    AggState → List PyCommit → AggState × Bool
  | st, [] => (st, false)
  | st, c :: rest =>
    match processCommit cfg localize st c with
    | (st', true) => (st', true)
    | (st', false) => processPage cfg localize st' rest

/-- Process all delivered commit pages of one repository; an exception
raised while processing a commit aborts the remaining pages (it is caught
and logged at the repository level). -/
def processPages (cfg : AggCfg) (localize : LocalizeFn) :
    AggState → List (List PyCommit) → AggState
  | st, [] => st
  | st, page :: rest =>
    match processPage cfg localize st page with
    | (st', true) => st'
    | (st', false) => processPages cfg localize st' rest

/-- One iteration of the repository loop of `aggregate`: skip excluded
forks and repositories without owner or name, accumulate language bytes
(a failed language fetch is logged and contributes nothing), then process
the commit pages. -/
def processRepo (cfg : AggCfg) (localize : LocalizeFn) (st : AggState) (r : PyRepo) :
    AggState :=
  if cfg.excludeForks && r.fork then st
  else
    match strVal r.owner, strVal r.name with
    | some _, some _ =>
      let st1 :=
        match r.langs with
        | none => st
        | some ls =>
          { st with langBytes := ls.foldl (fun m p => addLang m p.1 p.2) st.langBytes }
      processPages cfg localize st1 r.commitPages
    | _, _ => st

/-- `aggregate` of `scripts/analytics.py`, over the repository stream
`iter_repos` delivers.  The returned tuple
`(total_commits, tod, weekday, dict(lang_bytes))` is the corresponding
projection of the final state. -/
def aggregate (cfg : AggCfg) (localize : LocalizeFn) (repos : List PyRepo) : AggState :=
  repos.foldl (processRepo cfg localize) initAggState

/-- Sum of the time-of-day counter over the four bucket keys. -/
def todSum (f : String → Nat) : Nat :=
  f "Morning" + f "Day" + f "Evening" + f "Night"

/-- Sum of the weekday counter over the seven weekday keys. -/
def weekdaySum (f : String → Nat) : Nat :=
  f "Monday" + f "Tuesday" + f "Wednesday" + f "Thursday" + f "Friday" +
    f "Saturday" + f "Sunday"

/-! ## analytics.py: language-row folding in `render_markdown`

The language block of `render_markdown` takes the (already allow-list
filtered) name-to-bytes association `filtered_bytes`, sorts its items by
byte count descending with Python's stable `sorted(..., key=lambda x: x[1],
reverse=True)`, and, when more than 8 rows remain, keeps the first 8 and
appends one synthetic `("Other", sum of the rest)` row.  Python's stable
descending sort by key is modelled by stable insertion sort with the
relation "my key is at least yours": an element is inserted before the
first earlier-seen element with a strictly smaller key and after
earlier-seen elements with an equal key. -/

def langDescRel (a b : String × Int) : Prop := b.2 ≤ a.2

instance : DecidableRel langDescRel := fun a b => inferInstanceAs (Decidable (b.2 ≤ a.2))

instance : IsTotal (String × Int) langDescRel :=
  ⟨fun a b => le_total b.2 a.2⟩

instance : IsTrans (String × Int) langDescRel :=
  ⟨fun _ _ _ h1 h2 => le_trans h2 h1⟩

/-- `lang_sorted` plus the top-8/`Other` folding of `render_markdown`. -/
def langRows (items : List (String × Int)) : List (String × Int) :=
  let sorted := List.insertionSort langDescRel items
  if sorted.length > 8 then
    sorted.take 8 ++ [("Other", (((sorted.drop 8).map Prod.snd).sum))]
  else sorted

/-! ## render_cards.py: daily series and streaks -/

/-- `DayPoint` of `scripts/render_cards.py`; the calendar day is modelled
as a day number (`datetime.date` is totally ordered and advanced one day at
a time, which is all the source uses). -/
structure DayPoint where
  day : Int
  count : Int
deriving DecidableEq, Repr

/-- One entry of `weeks[i]["contributionDays"]`: the (already ISO-parsed)
optional date and the contribution count (`int(d.get("contributionCount")
or 0)`).  An entry with a missing or empty date string is skipped. -/
structure RawDay where
  date : Option Int
  count : Int

/-- The flattening loop of `fetch_daily_contributions`: every day of every
week, in order, keeping entries that carry a date. -/
def flattenWeeks (weeks : List (List RawDay)) : List DayPoint :=
  weeks.flatMap (fun w =>
    w.filterMap (fun d =>
      match d.date with
      | some dt => some ⟨dt, d.count⟩
      | none => none))

def dayLeRel (a b : DayPoint) : Prop := a.day ≤ b.day

instance : DecidableRel dayLeRel := fun a b => inferInstanceAs (Decidable (a.day ≤ b.day))

instance : IsTotal DayPoint dayLeRel := ⟨fun a b => le_total a.day b.day⟩

instance : IsTrans DayPoint dayLeRel := ⟨fun _ _ _ h1 h2 => le_trans h1 h2⟩

/-- The gap-filling walk of `fetch_daily_contributions`: walk the window
one day at a time (`n` days starting at `cur`); when the next pending
sorted-and-filtered point has exactly this date, consume it, otherwise
synthesize a zero-count point. -/
def fillWalk (wanted : List DayPoint) (cur : Int) : Nat → List DayPoint
  | 0 => []
  | n + 1 =>
    match wanted with
    | w :: rest =>
      if w.day = cur then w :: fillWalk rest (cur + 1) n
      else ⟨cur, 0⟩ :: fillWalk wanted (cur + 1) n
    | [] => ⟨cur, 0⟩ :: fillWalk [] (cur + 1) n

/-- The series-building core of `fetch_daily_contributions` (everything
after the GraphQL response is decoded): flatten the week/day structure,
sort by day (Python's stable `list.sort`), keep the days inside the
inclusive window `[fromDay, toDay]`, and walk the window filling gaps with
zero-count points.  The `while cur <= today` loop runs once per day of the
window, i.e. `toDay + 1 - fromDay` times when the window is nonempty. -/
def buildDailySeries (weeks : List (List RawDay)) (fromDay toDay : Int) : List DayPoint :=
  let points := List.insertionSort dayLeRel (flattenWeeks weeks)
  let wanted := points.filter (fun p => fromDay ≤ p.day && p.day ≤ toDay)
  fillWalk wanted fromDay (toDay + 1 - fromDay).toNat

/-- The consecutive days of the window `[s, s + n)`, in ascending order:
the reference enumeration used to state C7. -/
def intRange (s : Int) (n : Nat) : List Int :=
  (List.range n).map (fun (i : Nat) => s + (i : Int))

/-- The count carried by the first input entry for day `d`, or zero when no
entry for `d` exists: the reference lookup used to state C7. -/
def lookupCount (flat : List DayPoint) (d : Int) : Int :=
  ((flat.find? (fun e => e.day == d)).map DayPoint.count).getD 0

/-- The `longest`/`run` loop of `compute_streaks`. -/
def longestLoop : List DayPoint → Nat → Nat → Nat
  | [], _, longest => longest
  | p :: rest, run, longest =>
    if p.count > 0 then
      let run' := run + 1
      longestLoop rest run' (if run' > longest then run' else longest)
    else longestLoop rest 0 longest

/-- The backward `current` loop of `compute_streaks`: walk the reversed
series and count until the first non-positive day. -/
def currentLoop : List DayPoint → Nat
  | [] => 0
  | p :: rest => if p.count > 0 then currentLoop rest + 1 else 0

/-- `compute_streaks` of `scripts/render_cards.py`: returns
`(total, current, longest)`; the empty series short-circuits to
`(0, 0, 0)`. -/
def compute_streaks (points : List DayPoint) : Int × Nat × Nat :=
  match points with
  | [] => (0, 0, 0)
  | _ =>
    ((points.map DayPoint.count).sum,
      currentLoop points.reverse,
      longestLoop points 0 0)

/-! ## utils.py: `safe_div` and `to_percent`

The two functions compute with Python floats; the claim under scrutiny only
concerns the guarded branch, where the value is the exact literal `0.0` and
`round(0.0 * 100.0, 2)` is exact, so the numbers are modelled as rationals.
`round` is Python's round-half-to-even, exact at these values. -/

def safe_div (numerator denominator : Int) : ℚ :=
  if denominator ≤ 0 then 0 else (numerator : ℚ) / (denominator : ℚ)

/-- Python `round(x, digits)` as round-half-to-even on the scaled value. -/
def pyRound (x : ℚ) (digits : Nat) : ℚ :=
  let y := x * (10 : ℚ) ^ digits
  let f : Int := ⌊y⌋
  let r := y - (f : ℚ)
  let z : Int :=
    if r < 1 / 2 then f
    else if r > 1 / 2 then f + 1
    else if Even f then f else f + 1
  (z : ℚ) / (10 : ℚ) ^ digits

def to_percent (part total : Int) (digits : Nat := 2) : ℚ :=
  pyRound (safe_div part total * 100) digits

/-! ## Auxiliary definitions used by theorem statements and witnesses -/

/-- Concrete page responses used by the C4 witness. -/
def respW : Nat → Option (List Nat) :=
  fun j => if j = 1 then some [10, 20] else if j = 2 then some [30] else some [0, 0]

/-- `runsFrom l r` is the length of the longest run of consecutive
positive-count days in `l`, where the first run (if the list starts
positive) is credited `r` already-seen positive days; it characterises the
`run`/`longest` accumulator loop of `compute_streaks`. -/
def runsFrom : List DayPoint → Nat → Nat
  | [], r => r
  | p :: rest, r =>
    if p.count > 0 then runsFrom rest (r + 1) else max r (runsFrom rest 0)

/-- The invariant of C5: the total equals the bucket sums and the size of
the deduplication set. -/
def AggInv (st : AggState) : Prop :=
  st.total = todSum st.tod ∧ st.total = weekdaySum st.weekday ∧
    st.total = st.seen.length

/-- A total date conversion and a repository whose commit pages repeat a
sha, used by the C5 witness. -/
def locW : LocalizeFn := fun _ => some (10, (2 : Fin 7))

def repoW : PyRepo :=
  ⟨false, some "o", some "r", some [("Python", 12)],
    [[⟨some "abc", "msg", some 1, some "2024-01-01T10:11:12Z"⟩],
     [⟨some "abc", "msg", some 1, some "2024-01-01T10:11:12Z"⟩,
      ⟨some "def", "msg", some 1, some "2024-01-02T03:04:05Z"⟩]]⟩

/-- A date conversion that fails on the malformed date string `"garbage"`
(as `datetime.strptime` does), and a repository carrying a commit with that
date, used by the C5 counterexample. -/
def locCx : LocalizeFn := fun s => if s = "garbage" then none else some (10, (0 : Fin 7))

def repoCx : PyRepo :=
  ⟨false, some "o", some "r", some [],
    [[⟨some "abc", "msg", some 1, some "garbage"⟩]]⟩

/-! ## Lemmas: the regex search of the patcher -/

theorem prefix_append_iff {p x : List Char} (y : List Char) (h : p.length ≤ x.length) :
    p <+: x ++ y ↔ p <+: x := by
  constructor
  · intro hp
    rw [List.prefix_iff_eq_take] at hp
    rw [List.take_append_eq_append_take, Nat.sub_eq_zero_of_le h, List.take_zero,
      List.append_nil] at hp
    rw [hp]
    exact List.take_prefix _ _
  · intro hp
    exact hp.trans (List.prefix_append x y)

theorem findSplit_nil (pat : List Char) :
    findSplit pat [] = if pat.isEmpty then some ([], []) else none := rfl

theorem findSplit_cons_pos {pat : List Char} {c : Char} {rest : List Char}
    (h : pat <+: (c :: rest)) :
    findSplit pat (c :: rest) = some ([], (c :: rest).drop pat.length) := by
  simp [findSplit, h]

theorem findSplit_cons_neg {pat : List Char} {c : Char} {rest : List Char}
    (h : ¬ pat <+: (c :: rest)) :
    findSplit pat (c :: rest) =
      match findSplit pat rest with
      | some (a, b) => some (c :: a, b)
      | none => none := by
  simp [findSplit, h]

theorem findSplit_sound (pat : List Char) :
    ∀ (s a b : List Char), findSplit pat s = some (a, b) → s = a ++ pat ++ b := by
  intro s
  induction s with
  | nil =>
    intro a b h
    rw [findSplit_nil] at h
    by_cases hp : pat.isEmpty
    · have hpat : pat = [] := by
        cases pat with
        | nil => rfl
        | cons c l => simp [List.isEmpty] at hp
      rw [if_pos hp] at h
      simp only [Option.some.injEq, Prod.mk.injEq] at h
      obtain ⟨rfl, rfl⟩ := h
      simp [hpat]
    · rw [if_neg hp] at h
      exact absurd h (by simp)
  | cons c rest ih =>
    intro a b h
    by_cases hpre : pat <+: (c :: rest)
    · rw [findSplit_cons_pos hpre] at h
      simp only [Option.some.injEq, Prod.mk.injEq] at h
      obtain ⟨rfl, rfl⟩ := h
      obtain ⟨t, ht⟩ := hpre
      conv_lhs => rw [← ht]
      rw [← ht, List.drop_left, List.nil_append]
    · rw [findSplit_cons_neg hpre] at h
      cases hfs : findSplit pat rest with
      | none => rw [hfs] at h; exact absurd h (by simp)
      | some ab =>
        obtain ⟨a', b'⟩ := ab
        rw [hfs] at h
        simp only [Option.some.injEq, Prod.mk.injEq] at h
        obtain ⟨rfl, rfl⟩ := h
        have := ih a' b' hfs
        rw [List.cons_append, List.cons_append, ← this]

theorem findSplit_ne_none (pat : List Char) :
    ∀ (x y : List Char), findSplit pat (x ++ pat ++ y) ≠ none := by
  intro x
  induction x with
  | nil =>
    intro y
    rw [List.nil_append]
    cases hp : pat ++ y with
    | nil =>
      have hpe : pat.isEmpty := by
        cases pat with
        | nil => rfl
        | cons c l => simp at hp
      rw [findSplit_nil, if_pos hpe]
      simp
    | cons c rest =>
      have hpre : pat <+: (c :: rest) := by
        rw [← hp]
        exact List.prefix_append pat y
      rw [findSplit_cons_pos hpre]
      simp
  | cons c x' ih =>
    intro y
    simp only [List.cons_append]
    by_cases hpre : pat <+: (c :: (x' ++ pat ++ y))
    · rw [findSplit_cons_pos (by simpa using hpre)]
      simp
    · rw [findSplit_cons_neg (by simpa using hpre)]
      cases hfs : findSplit pat (x' ++ pat ++ y) with
      | none => exact absurd hfs (ih y)
      | some ab => simp

theorem findSplit_first (pat : List Char) :
    ∀ (a b : List Char), (∀ o < a.length, ¬ pat <+: (a ++ pat).drop o) →
      findSplit pat (a ++ pat ++ b) = some (a, b) := by
  intro a
  induction a with
  | nil =>
    intro b _
    rw [List.nil_append]
    cases hp : pat ++ b with
    | nil =>
      have hpe : pat = [] := by
        cases pat with
        | nil => rfl
        | cons c l => simp at hp
      have hbe : b = [] := by
        rw [hpe] at hp
        simpa using hp
      subst hpe; subst hbe
      simp [findSplit_nil]
    | cons c rest =>
      have hpre : pat <+: (c :: rest) := by
        rw [← hp]
        exact List.prefix_append pat b
      rw [findSplit_cons_pos hpre, ← hp, List.drop_left]
  | cons c a' ih =>
    intro b h
    have h0 : ¬ pat <+: (c :: a') ++ pat := by
      have := h 0 (by simp)
      simpa using this
    have hpre : ¬ pat <+: (c :: (a' ++ pat ++ b)) := by
      intro hc
      apply h0
      have hlen : pat.length ≤ ((c :: a') ++ pat).length := by
        simp only [List.length_append, List.length_cons]
        omega
      have heq : (c :: a') ++ pat ++ b = c :: (a' ++ pat ++ b) := by simp
      rw [← prefix_append_iff b hlen, heq]
      exact hc
    simp only [List.cons_append]
    rw [findSplit_cons_neg hpre,
      ih b (fun o ho => by
        have := h (o + 1) (by simpa using Nat.succ_lt_succ ho)
        simpa using this)]

theorem reSearch_nil (sm' em' : List Char) : reSearch sm' em' [] = none := rfl

theorem reSearch_cons_found {sm' em' : List Char} {c : Char} {rest inner post : List Char}
    (hpre : sm' <+: (c :: rest))
    (hfs : findSplit em' ((c :: rest).drop sm'.length) = some (inner, post)) :
    reSearch sm' em' (c :: rest) = some ([], inner, post) := by
  simp [reSearch, hpre, hfs]

theorem reSearch_cons_shift {sm' em' : List Char} {c : Char} {rest : List Char}
    (h : ¬ sm' <+: (c :: rest) ∨ findSplit em' ((c :: rest).drop sm'.length) = none) :
    reSearch sm' em' (c :: rest) =
      match reSearch sm' em' rest with
      | some (p, i, q) => some (c :: p, i, q)
      | none => none := by
  rcases h with h | h
  · simp [reSearch, h]
  · by_cases hpre : sm' <+: (c :: rest)
    · simp [reSearch, hpre, h]
    · simp [reSearch, hpre]

theorem reSearch_sound (sm' em' : List Char) :
    ∀ (s pre inner post : List Char),
      reSearch sm' em' s = some (pre, inner, post) →
      s = pre ++ sm' ++ inner ++ em' ++ post := by
  intro s
  induction s with
  | nil => intro pre inner post h; rw [reSearch_nil] at h; exact absurd h (by simp)
  | cons c rest ih =>
    intro pre inner post h
    by_cases hpre : sm' <+: (c :: rest)
    · cases hfs : findSplit em' ((c :: rest).drop sm'.length) with
      | some ip =>
        obtain ⟨i, p⟩ := ip
        rw [reSearch_cons_found hpre hfs] at h
        simp only [Option.some.injEq, Prod.mk.injEq] at h
        obtain ⟨rfl, rfl, rfl⟩ := h
        obtain ⟨t, ht⟩ := hpre
        have hts : t = (c :: rest).drop sm'.length := by
          rw [← ht, List.drop_left]
        have hsp := findSplit_sound em' _ _ _ hfs
        rw [← hts] at hsp
        rw [← ht, hsp, List.nil_append]
        simp [List.append_assoc]
      | none =>
        rw [reSearch_cons_shift (Or.inr hfs)] at h
        cases hrs : reSearch sm' em' rest with
        | none => rw [hrs] at h; exact absurd h (by simp)
        | some piq =>
          obtain ⟨p, i, q⟩ := piq
          rw [hrs] at h
          simp only [Option.some.injEq, Prod.mk.injEq] at h
          obtain ⟨rfl, rfl, rfl⟩ := h
          have := ih p i q hrs
          simp [this]
    · rw [reSearch_cons_shift (Or.inl hpre)] at h
      cases hrs : reSearch sm' em' rest with
      | none => rw [hrs] at h; exact absurd h (by simp)
      | some piq =>
        obtain ⟨p, i, q⟩ := piq
        rw [hrs] at h
        simp only [Option.some.injEq, Prod.mk.injEq] at h
        obtain ⟨rfl, rfl, rfl⟩ := h
        have := ih p i q hrs
        simp [this]

theorem reSearch_ne_none (sm' em' : List Char) (hsm : sm' ≠ []) :
    ∀ (x y z : List Char), reSearch sm' em' (x ++ (sm' ++ (y ++ (em' ++ z)))) ≠ none := by
  intro x
  induction x with
  | nil =>
    intro y z
    rw [List.nil_append]
    cases hsm' : sm' with
    | nil => exact absurd hsm' hsm
    | cons cs ss =>
      rw [List.cons_append]
      have hpre : (cs :: ss) <+: cs :: (ss ++ (y ++ (em' ++ z))) :=
        ⟨y ++ (em' ++ z), by rw [List.cons_append]⟩
      have hdrop : (cs :: (ss ++ (y ++ (em' ++ z)))).drop (cs :: ss).length
          = y ++ (em' ++ z) := by
        rw [← List.cons_append, List.drop_left]
      cases hfs : findSplit em' ((cs :: (ss ++ (y ++ (em' ++ z)))).drop (cs :: ss).length) with
      | some ip =>
        obtain ⟨i, p⟩ := ip
        rw [reSearch_cons_found hpre hfs]
        simp
      | none =>
        rw [hdrop] at hfs
        have : y ++ (em' ++ z) = y ++ em' ++ z := by simp
        rw [this] at hfs
        exact absurd hfs (findSplit_ne_none em' y z)
  | cons cx x' ih =>
    intro y z
    rw [List.cons_append]
    by_cases hpre : sm' <+: (cx :: (x' ++ (sm' ++ (y ++ (em' ++ z)))))
    · cases hfs : findSplit em'
          ((cx :: (x' ++ (sm' ++ (y ++ (em' ++ z))))).drop sm'.length) with
      | some ip =>
        obtain ⟨i, p⟩ := ip
        rw [reSearch_cons_found hpre hfs]
        simp
      | none =>
        rw [reSearch_cons_shift (Or.inr hfs)]
        cases hrs : reSearch sm' em' (x' ++ (sm' ++ (y ++ (em' ++ z)))) with
        | none => exact absurd hrs (ih y z)
        | some piq => obtain ⟨p, i, q⟩ := piq; simp
    · rw [reSearch_cons_shift (Or.inl hpre)]
      cases hrs : reSearch sm' em' (x' ++ (sm' ++ (y ++ (em' ++ z)))) with
      | none => exact absurd hrs (ih y z)
      | some piq => obtain ⟨p, i, q⟩ := piq; simp

theorem reSearch_first (sm' em' : List Char) (hsm : sm' ≠ []) :
    ∀ (pre inner post : List Char),
      (∀ o < pre.length, ¬ sm' <+: (pre ++ sm').drop o) →
      (∀ o < inner.length, ¬ em' <+: (inner ++ em').drop o) →
      reSearch sm' em' (pre ++ (sm' ++ (inner ++ (em' ++ post)))) =
        some (pre, inner, post) := by
  intro pre
  induction pre with
  | nil =>
    intro inner post _ h2
    rw [List.nil_append]
    cases hsm' : sm' with
    | nil => exact absurd hsm' hsm
    | cons cs ss =>
      rw [List.cons_append]
      have hpre : (cs :: ss) <+: cs :: (ss ++ (inner ++ (em' ++ post))) :=
        ⟨inner ++ (em' ++ post), by rw [List.cons_append]⟩
      have hfs : findSplit em' ((cs :: (ss ++ (inner ++ (em' ++ post)))).drop
          (cs :: ss).length) = some (inner, post) := by
        rw [← List.cons_append, List.drop_left]
        have : inner ++ (em' ++ post) = inner ++ em' ++ post := by simp
        rw [this]
        exact findSplit_first em' inner post h2
      rw [reSearch_cons_found hpre hfs]
  | cons cp pre' ih =>
    intro inner post h1 h2
    rw [List.cons_append]
    have h0 : ¬ sm' <+: (cp :: pre') ++ sm' := by
      have := h1 0 (by simp)
      simpa using this
    have hpre : ¬ sm' <+: cp :: (pre' ++ (sm' ++ (inner ++ (em' ++ post)))) := by
      intro hc
      apply h0
      have hlen : sm'.length ≤ ((cp :: pre') ++ sm').length := by
        simp only [List.length_append, List.length_cons]
        omega
      have heq : (cp :: pre') ++ sm' ++ (inner ++ (em' ++ post)) =
          cp :: (pre' ++ (sm' ++ (inner ++ (em' ++ post)))) := by simp
      rw [← prefix_append_iff (inner ++ (em' ++ post)) hlen, heq]
      exact hc
    rw [reSearch_cons_shift (Or.inl hpre),
      ih inner post (fun o ho => by
        have := h1 (o + 1) (by simpa using Nat.succ_lt_succ ho)
        simpa using this) h2]

theorem reSearch_no_earlier (sm' em' : List Char) :
    ∀ (s pre inner post : List Char),
      reSearch sm' em' s = some (pre, inner, post) →
      ∀ o < pre.length, ¬ sm' <+: (pre ++ sm').drop o := by
  intro s
  induction s with
  | nil =>
    intro pre inner post h
    rw [reSearch_nil] at h
    exact absurd h (by simp)
  | cons c rest ih =>
    intro pre inner post h
    by_cases hpre : sm' <+: (c :: rest)
    · cases hfs : findSplit em' ((c :: rest).drop sm'.length) with
      | some ip =>
        obtain ⟨i, p⟩ := ip
        rw [reSearch_cons_found hpre hfs] at h
        simp only [Option.some.injEq, Prod.mk.injEq] at h
        obtain ⟨rfl, rfl, rfl⟩ := h
        intro o ho
        exact absurd ho (by simp)
      | none =>
        rw [reSearch_cons_shift (Or.inr hfs)] at h
        cases hrs : reSearch sm' em' rest with
        | none => rw [hrs] at h; exact absurd h (by simp)
        | some piq =>
          obtain ⟨p, i, q⟩ := piq
          exfalso
          have hrest := reSearch_sound sm' em' rest p i q hrs
          obtain ⟨t, ht⟩ := hpre
          have hts : t = (c :: rest).drop sm'.length := by
            rw [← ht, List.drop_left]
          have hshape : c :: rest = ((c :: p) ++ sm') ++ ((i ++ em') ++ q) := by
            rw [hrest]; simp
          have hlen : sm'.length ≤ ((c :: p) ++ sm').length := by
            simp only [List.length_append, List.length_cons]
            omega
          have htv : t = (((c :: p) ++ sm').drop sm'.length ++ i) ++ em' ++ q := by
            rw [hts, hshape, List.drop_append_eq_append_drop,
              Nat.sub_eq_zero_of_le hlen, List.drop_zero]
            simp
          rw [← hts, htv] at hfs
          exact absurd hfs (findSplit_ne_none em' _ q)
    · rw [reSearch_cons_shift (Or.inl hpre)] at h
      cases hrs : reSearch sm' em' rest with
      | none => rw [hrs] at h; exact absurd h (by simp)
      | some piq =>
        obtain ⟨p, i, q⟩ := piq
        rw [hrs] at h
        simp only [Option.some.injEq, Prod.mk.injEq] at h
        obtain ⟨rfl, rfl, rfl⟩ := h
        intro o ho
        cases o with
        | zero =>
          rw [List.drop_zero]
          intro hc
          apply hpre
          have hrest := reSearch_sound sm' em' rest p i q hrs
          have hlen : sm'.length ≤ ((c :: p) ++ sm').length := by
            simp only [List.length_append, List.length_cons]
            omega
          have hshape : c :: rest = ((c :: p) ++ sm') ++ ((i ++ em') ++ q) := by
            rw [hrest]; simp
          rw [hshape]
          exact (prefix_append_iff _ hlen).mpr hc
        | succ o' =>
          have : ((c :: p) ++ sm').drop (o' + 1) = (p ++ sm').drop o' := by
            simp
          rw [this]
          exact ih p i q hrs o' (by simpa using Nat.succ_lt_succ_iff.mp ho)

/-! ## Lemmas: template expansion without backslashes -/

theorem parseTemplateF_step (g0 g1 g2 g3 : List Char) (f : Nat) (c : Char)
    (rest : List Char) (hne : ¬ c = '\\') :
    parseTemplateF g0 g1 g2 g3 (f + 1) (c :: rest) =
      match parseTemplateF g0 g1 g2 g3 f rest with
      | .error e => .error e
      | .ok tail => .ok (c :: tail) := by
  simp [parseTemplateF, hne]

theorem parseTemplateF_esc (g0 g1 g2 g3 : List Char) (f : Nat) (rest em : List Char)
    (n : Nat) (hce : consumeEscape g0 g1 g2 g3 rest = .ok (em, n)) :
    parseTemplateF g0 g1 g2 g3 (f + 1) ('\\' :: rest) =
      match parseTemplateF g0 g1 g2 g3 f (rest.drop n) with
      | .error e => .error e
      | .ok tail => .ok (em ++ tail) := by
  simp [parseTemplateF, hce]

theorem parseTemplateF_no_bs (g0 g1 g2 g3 : List Char) :
    ∀ (new : List Char) (fuel : Nat), (∀ c ∈ new, c ≠ '\\') →
      new.length + 2 ≤ fuel →
      parseTemplateF g0 g1 g2 g3 fuel (new ++ ['\\', '3']) = .ok (new ++ g3) := by
  intro new
  induction new with
  | nil =>
    intro fuel _ hf
    obtain ⟨f, rfl⟩ : ∃ f, fuel = f + 1 := ⟨fuel - 1, by omega⟩
    have hce : consumeEscape g0 g1 g2 g3 ['3'] = .ok (g3, 1) := rfl
    rw [List.nil_append, parseTemplateF_esc g0 g1 g2 g3 f ['3'] g3 1 hce]
    simp [parseTemplateF]
  | cons c new' ih =>
    intro fuel h hf
    obtain ⟨f, rfl⟩ : ∃ f, fuel = f + 1 := ⟨fuel - 1, by omega⟩
    have hc : ¬ c = '\\' := h c (by simp)
    rw [List.cons_append, parseTemplateF_step g0 g1 g2 g3 f c _ hc,
      ih f (fun d hd => h d (by simp [hd])) (by simpa using Nat.le_of_succ_le_succ hf)]
    rfl

theorem consumeEscape_one (g0 g1 g2 g3 : List Char) (new : List Char)
    (hnd : ∀ c ∈ new.take 1, c.isDigit = false) :
    consumeEscape g0 g1 g2 g3 ('1' :: (new ++ ['\\', '3'])) = .ok (g1, 1) := by
  cases hn : new with
  | nil => rfl
  | cons c0 new'' =>
    have hd : c0.isDigit = false := hnd c0 (by rw [hn]; simp)
    simp [consumeEscape, hd, groupVal, digitVal]

theorem parseTemplate_literal (g0 g1 g2 g3 : List Char) (new : List Char)
    (hnb : ∀ c ∈ new, c ≠ '\\')
    (hnd : ∀ c ∈ new.take 1, c.isDigit = false) :
    parseTemplate g0 g1 g2 g3 ('\\' :: '1' :: (new ++ ['\\', '3'])) =
      .ok (g1 ++ (new ++ g3)) := by
  show parseTemplateF g0 g1 g2 g3 ('\\' :: '1' :: (new ++ ['\\', '3'])).length
      ('\\' :: '1' :: (new ++ ['\\', '3'])) = _
  have hlen : ('\\' :: '1' :: (new ++ ['\\', '3'])).length = (new.length + 3) + 1 := by
    simp
  rw [hlen,
    parseTemplateF_esc g0 g1 g2 g3 (new.length + 3) _ g1 1
      (consumeEscape_one g0 g1 g2 g3 new hnd)]
  have hdrop : ('1' :: (new ++ ['\\', '3'])).drop 1 = new ++ ['\\', '3'] := rfl
  rw [hdrop, parseTemplateF_no_bs g0 g1 g2 g3 new (new.length + 3) hnb (by omega)]

/-! ## Claim theorems: the marker-delimited patcher -/

/-- C3 (confirmed): for every document that does not contain the
start-marker/end-marker pair in the required form (the literal start marker
followed by a newline, then any content, then a newline followed by the
literal end marker), `update_section` propagates the markers-not-found
error (the spec's `MarkersNotFoundError` kind, raised as `ValueError` with
the message `markersNotFoundMsg`) and the target document is left
unmodified: no write occurs. -/
theorem C3_missing_markers (sm em doc new : List Char)
    (h : ∀ a b c : List Char,
        doc ≠ a ++ (sm ++ ['\n']) ++ b ++ ('\n' :: em) ++ c) :
    update_section ⟨sm, em⟩ doc new = (.error markersNotFoundMsg, doc) := by
  cases hr : reSearch (sm ++ ['\n']) ('\n' :: em) doc with
  | none => simp [update_section, ReadmeSection.replace, hr]
  | some piq =>
    obtain ⟨p, i, q⟩ := piq
    exact absurd (reSearch_sound _ _ doc p i q hr) (h p i q)

/-- Helper for discharging C3's hypothesis at concrete inputs: a failed
search certifies that no decomposition exists. -/
theorem no_decomp_of_reSearch_none (sm em doc : List Char)
    (h : reSearch (sm ++ ['\n']) ('\n' :: em) doc = none) :
    ∀ a b c : List Char, doc ≠ a ++ (sm ++ ['\n']) ++ b ++ ('\n' :: em) ++ c := by
  intro a b c heq
  apply reSearch_ne_none (sm ++ ['\n']) ('\n' :: em) (by simp) a b c
  rw [← h, heq]
  congr 1
  simp [List.append_assoc]

/-- Witness for C3: a document with no markers at all. -/
theorem C3_missing_markers_witness :
    update_section ⟨"START".data, "END".data⟩ "no markers here".data "new".data =
      (.error markersNotFoundMsg, "no markers here".data) :=
  C3_missing_markers _ _ _ _
    (no_decomp_of_reSearch_none "START".data "END".data "no markers here".data rfl)

/-- C2 counterexample: the claim promises that for *every* `new_inner_text`
the enclosed content is replaced by it verbatim, but `re.sub` interprets
the replacement as a template, so the text `2x` merges into the pattern's
leading `\1` group reference, producing the group reference `\12` and an
"invalid group reference" error instead of the patched document. -/
theorem C2_counterexample :
    ReadmeSection.replace ⟨"START".data, "END".data⟩ "START\nold\nEND".data "2x".data =
      .error "invalid group reference" := rfl

/-- C2 (corrected): for every document containing the marker pattern, with
the first match decomposed as `pre ++ start ++ newline ++ inner ++ newline
++ end ++ post` (the two "first occurrence" hypotheses pin down the
leftmost-shortest regex match), and every `new_inner_text` whose trailing
newlines have been stripped and which contains no backslash and does not
begin with a decimal digit, `replace` returns the document with exactly
that first enclosed content replaced by the stripped `new_inner_text`, all
characters outside the first region (including later marker pairs)
unchanged. -/
theorem C2_replace_first_region (sm em pre inner post rawNew : List Char)
    (h1 : ∀ o < pre.length, ¬ (sm ++ ['\n']) <+: (pre ++ (sm ++ ['\n'])).drop o)
    (h2 : ∀ o < inner.length, ¬ ('\n' :: em) <+: (inner ++ ('\n' :: em)).drop o)
    (hnb : ∀ c ∈ pyRstripNL rawNew, c ≠ '\\')
    (hnd : ∀ c ∈ (pyRstripNL rawNew).take 1, c.isDigit = false) :
    ReadmeSection.replace ⟨sm, em⟩
        (pre ++ (sm ++ ['\n']) ++ inner ++ ('\n' :: em) ++ post) (pyRstripNL rawNew) =
      .ok (pre ++ (sm ++ ['\n']) ++ pyRstripNL rawNew ++ ('\n' :: em) ++ post) := by
  have hrs : reSearch (sm ++ ['\n']) ('\n' :: em)
      (pre ++ (sm ++ ['\n']) ++ inner ++ ('\n' :: em) ++ post) =
      some (pre, inner, post) := by
    have heq : pre ++ (sm ++ ['\n']) ++ inner ++ ('\n' :: em) ++ post =
        pre ++ ((sm ++ ['\n']) ++ (inner ++ (('\n' :: em) ++ post))) := by
      simp [List.append_assoc]
    rw [heq]
    exact reSearch_first _ _ (by simp) pre inner post h1 h2
  simp only [ReadmeSection.replace, hrs, parseTemplate_literal _ _ _ _ _ hnb hnd]
  simp [List.append_assoc]

/-- Witness for C2: patch a two-region document; only the first region
changes and the trailing newline of the new text is stripped. -/
theorem C2_replace_first_region_witness :
    ReadmeSection.replace ⟨"START".data, "END".data⟩
        "A START\nold\nEND B START\ny\nEND C".data (pyRstripNL "new\n".data) =
      .ok "A START\nnew\nEND B START\ny\nEND C".data := by
  have h := C2_replace_first_region "START".data "END".data
    "A ".data "old".data " B START\ny\nEND C".data "new\n".data
    (by decide) (by decide) (by decide) (by decide)
  exact h

/-- C1 counterexample: with `new_inner_text` containing a newline followed
by the end marker, the first application inserts a new end-marker line, so
the second application matches a shorter region, changes the document
again, and reports `True`: the operation is not idempotent for every
`new_inner_text`. -/
theorem C1_counterexample :
    update_section ⟨"START".data, "END".data⟩ "START\nold\nEND".data "x\nEND".data =
        (.ok true, "START\nx\nEND\nEND".data) ∧
      update_section ⟨"START".data, "END".data⟩ "START\nx\nEND\nEND".data "x\nEND".data =
        (.ok true, "START\nx\nEND\nEND\nEND".data) :=
  ⟨rfl, rfl⟩

/-- C1 (corrected): for every document containing the marker pair and every
`new_inner_text` whose stripped form contains no backslash, does not begin
with a decimal digit, and does not make the newline-plus-end-marker string
occur before the closing marker of the patched region, applying the section
replacement twice with the same text yields the same document as applying
it once: the second application detects textual equality, performs no
write, and returns the change flag `false`. -/
theorem C1_idempotent (sm em doc new d1 : List Char) (c1 : Bool)
    (hnb : ∀ c ∈ pyRstripNL new, c ≠ '\\')
    (hnd : ∀ c ∈ (pyRstripNL new).take 1, c.isDigit = false)
    (hne : ∀ o < (pyRstripNL new).length,
        ¬ ('\n' :: em) <+: ((pyRstripNL new) ++ ('\n' :: em)).drop o)
    (h : update_section ⟨sm, em⟩ doc new = (.ok c1, d1)) :
    update_section ⟨sm, em⟩ d1 new = (.ok false, d1) := by
  rcases hrep : ReadmeSection.replace ⟨sm, em⟩ doc (pyRstripNL new) with e | updated
  · simp only [update_section, hrep] at h
    exact absurd (congrArg Prod.fst h) (by simp)
  · simp only [update_section, hrep] at h
    have hd1 : d1 = updated := by
      by_cases he : updated = doc
      · rw [if_pos he] at h
        have h2 := congrArg Prod.snd h
        simp only at h2
        rw [← h2, he]
      · rw [if_neg he] at h
        have h2 := congrArg Prod.snd h
        simpa using h2.symm
    cases hr : reSearch (sm ++ ['\n']) ('\n' :: em) doc with
    | none =>
      simp [ReadmeSection.replace, hr] at hrep
    | some piq =>
      obtain ⟨p, i, q⟩ := piq
      simp only [ReadmeSection.replace, hr,
        parseTemplate_literal _ _ _ _ _ hnb hnd] at hrep
      have hupd : updated =
          p ++ ((sm ++ ['\n']) ++ (pyRstripNL new ++ ('\n' :: em))) ++ q :=
        (Except.ok.inj hrep).symm
      have h1' := reSearch_no_earlier (sm ++ ['\n']) ('\n' :: em) doc p i q hr
      have hrs2 : reSearch (sm ++ ['\n']) ('\n' :: em) d1 =
          some (p, pyRstripNL new, q) := by
        have hshape : d1 =
            p ++ ((sm ++ ['\n']) ++ (pyRstripNL new ++ (('\n' :: em) ++ q))) := by
          rw [hd1, hupd]
          simp [List.append_assoc]
        rw [hshape]
        exact reSearch_first _ _ (by simp) p (pyRstripNL new) q h1' hne
      have hrep2 : ReadmeSection.replace ⟨sm, em⟩ d1 (pyRstripNL new) = .ok d1 := by
        simp only [ReadmeSection.replace, hrs2,
          parseTemplate_literal _ _ _ _ _ hnb hnd]
        rw [hd1, hupd]
      simp only [update_section, hrep2]
      simp

/-- Witness for C1: after one successful patch, a second patch with the
same text is a change-free no-op. -/
theorem C1_idempotent_witness :
    update_section ⟨"START".data, "END".data⟩ "START\nnew\nEND".data "new\n".data =
      (.ok false, "START\nnew\nEND".data) :=
  C1_idempotent "START".data "END".data "START\nold\nEND".data "new\n".data
    "START\nnew\nEND".data true (by decide) (by decide) (by decide) rfl

/-! ## Claim theorems: pagination -/

theorem paginate_spec {α : Type} (resp : Nat → Option (List α)) (perPage : Nat)
    (hpp : 0 < perPage) :
    ∀ (m fuel s : Nat), m < fuel →
      (∀ j < m, ∃ p, resp (s + j) = some p ∧ perPage ≤ p.length) →
      (resp (s + m) = none ∨ ∃ p, resp (s + m) = some p ∧ p.length < perPage) →
      paginate resp perPage fuel s =
        ((List.range' s m).map (fun j => (resp j).getD [])) ++
          (match resp (s + m) with
           | none => []
           | some p => if p.length = 0 then [] else [p]) := by
  intro m
  induction m with
  | zero =>
    intro fuel s hf _ hstop
    obtain ⟨f, rfl⟩ : ∃ f, fuel = f + 1 := ⟨fuel - 1, by omega⟩
    rcases hstop with hs | ⟨p, hs, hp⟩
    · rw [Nat.add_zero] at hs
      simp [paginate, hs]
    · rw [Nat.add_zero] at hs
      by_cases h0 : p.length = 0
      · simp [paginate, hs, h0]
      · simp [paginate, hs, h0, hp, Nat.lt_of_lt_of_le hp (Nat.le_refl _)]
  | succ m ih =>
    intro fuel s hf hfull hstop
    obtain ⟨f, rfl⟩ : ∃ f, fuel = f + 1 := ⟨fuel - 1, by omega⟩
    obtain ⟨p0, hp0, hlen0⟩ := hfull 0 (Nat.succ_pos m)
    rw [Nat.add_zero] at hp0
    have hne : ¬ p0.length = 0 := by omega
    have hns : ¬ p0.length < perPage := by omega
    have hfull' : ∀ j < m, ∃ p, resp (s + 1 + j) = some p ∧ perPage ≤ p.length := by
      intro j hj
      have := hfull (j + 1) (by omega)
      rwa [show s + (j + 1) = s + 1 + j by omega] at this
    have hstop' : resp (s + 1 + m) = none ∨
        ∃ p, resp (s + 1 + m) = some p ∧ p.length < perPage := by
      rwa [show s + 1 + m = s + (m + 1) by omega]
    have hrec := ih f (s + 1) (by omega) hfull' hstop'
    simp only [paginate, hp0, hne, if_false, hns, reduceIte]
    rw [hrec, List.range'_succ]
    simp only [List.map_cons, hp0, Option.getD_some, List.cons_append]
    rw [show s + 1 + m = s + (m + 1) by omega]

/-- C4 (confirmed): for every sequence of page responses, `paginate` yields
pages in order starting at page 1 and terminates exactly at the first
response that is not a list or is an empty page (that response is not
yielded — treated as end-of-data, not an error) or at the first yielded
page shorter than the page size (that short page is yielded and is the
last); both the zero-length and the short-page conditions are checked. -/
theorem C4_paginate {α : Type} (resp : Nat → Option (List α)) (perPage fuel k : Nat)
    (hpp : 0 < perPage) (hk : 1 ≤ k) (hfuel : k ≤ fuel)
    (hfull : ∀ j, 1 ≤ j → j < k → ∃ p, resp j = some p ∧ perPage ≤ p.length)
    (hstop : resp k = none ∨ ∃ p, resp k = some p ∧ p.length < perPage) :
    paginate resp perPage fuel 1 =
      ((List.range' 1 (k - 1)).map (fun j => (resp j).getD [])) ++
        (match resp k with
         | none => []
         | some p => if p.length = 0 then [] else [p]) := by
  have h := paginate_spec resp perPage hpp (k - 1) fuel 1 (by omega)
    (fun j hj => by
      have := hfull (1 + j) (by omega) (by omega)
      exact this)
    (by rw [show 1 + (k - 1) = k by omega]; exact hstop)
  rwa [show 1 + (k - 1) = k by omega] at h

/-- Witness for C4: two full-size items on page 1, a short page 2; the
short page is yielded and ends the iteration. -/
theorem C4_paginate_witness : paginate respW 2 5 1 = [[10, 20], [30]] := by
  have h := C4_paginate respW 2 5 2 (by omega) (by omega) (by omega)
    (fun j h1 h2 => by
      have hj : j = 1 := by omega
      subst hj
      exact ⟨[10, 20], rfl, by simp⟩)
    (Or.inr ⟨[30], rfl, by simp⟩)
  simpa [respW] using h

/-! ## Claim theorems: time-of-day bucketing -/

/-- C6 (confirmed): for every local hour `h < 24` the bucket is determined
solely by the hour with half-open ranges: `[6,12)` Morning, `[12,18)` Day,
`[18,22)` Evening, and the wrap-around `[22,24) ∪ [0,6)` Night. -/
theorem C6_bucket (h : Nat) (hh : h < 24) :
    bucket_time_of_day h =
      if 6 ≤ h ∧ h < 12 then "Morning"
      else if 12 ≤ h ∧ h < 18 then "Day"
      else if 18 ≤ h ∧ h < 22 then "Evening"
      else "Night" := by
  revert hh
  revert h
  decide

/-- Witness for C6: the boundary hours named by the spec: 5 is Night, 6 is
Morning, 21 is Evening, 22 is Night. -/
theorem C6_bucket_witness :
    bucket_time_of_day 5 = "Night" ∧ bucket_time_of_day 6 = "Morning" ∧
      bucket_time_of_day 21 = "Evening" ∧ bucket_time_of_day 22 = "Night" :=
  ⟨by simpa using C6_bucket 5 (by omega), by simpa using C6_bucket 6 (by omega),
    by simpa using C6_bucket 21 (by omega), by simpa using C6_bucket 22 (by omega)⟩

/-! ## Claim theorems: guarded percentage division -/

/-- C10 (confirmed): for every integer numerator and every denominator
`d ≤ 0` — strictly negative included, not only zero — `safe_div` returns
`0.0` and hence `to_percent` returns `0.0` (no exception is raised: both
functions are total); the division branch is taken only for a strictly
positive denominator, where it computes the exact quotient. -/
theorem C10_safe_div_guard (n d : Int) (hd : d ≤ 0) :
    safe_div n d = 0 ∧ to_percent n d = 0 ∧
      (∀ d' : Int, 0 < d' → safe_div n d' = (n : ℚ) / (d' : ℚ)) := by
  refine ⟨by simp [safe_div, hd], ?_, ?_⟩
  · simp only [to_percent, safe_div, hd, if_pos, pyRound]
    norm_num
  · intro d' hd'
    simp [safe_div, not_le.mpr hd']

/-- Witness for C10: a strictly negative total. -/
theorem C10_safe_div_guard_witness :
    safe_div 5 (-3) = 0 ∧ to_percent 5 (-3) = 0 :=
  ⟨(C10_safe_div_guard 5 (-3) (by omega)).1, (C10_safe_div_guard 5 (-3) (by omega)).2.1⟩

/-! ## Claim theorems: streak computation

`runsFrom l r` is the length of the longest run of consecutive positive
days in `l`, where the first run (if the list starts positive) is credited
`r` already-seen positive days; it characterises the `run`/`longest`
accumulator loop of `compute_streaks`. -/

theorem runsFrom_ge (l : List DayPoint) : ∀ r, r ≤ runsFrom l r := by
  induction l with
  | nil => intro r; simp [runsFrom]
  | cons p rest ih =>
    intro r
    by_cases hp : p.count > 0
    · rw [runsFrom, if_pos hp]
      exact le_trans (Nat.le_succ r) (ih (r + 1))
    · rw [runsFrom, if_neg hp]
      exact Nat.le_max_left _ _

theorem longestLoop_eq (l : List DayPoint) :
    ∀ r g, r ≤ g → longestLoop l r g = max g (runsFrom l r) := by
  induction l with
  | nil =>
    intro r g h
    rw [longestLoop, runsFrom, Nat.max_eq_left h]
  | cons p rest ih =>
    intro r g h
    by_cases hp : p.count > 0
    · rw [longestLoop, if_pos hp, runsFrom, if_pos hp]
      have hif : (if r + 1 > g then r + 1 else g) = max g (r + 1) := by
        split
        · rw [Nat.max_eq_right (by omega)]
        · rw [Nat.max_eq_left (by omega)]
      show longestLoop rest (r + 1) (if r + 1 > g then r + 1 else g) = _
      rw [hif, ih (r + 1) (max g (r + 1)) (Nat.le_max_right _ _)]
      rw [Nat.max_assoc, Nat.max_eq_right (runsFrom_ge rest (r + 1))]
    · rw [longestLoop, if_neg hp, runsFrom, if_neg hp,
        ih 0 g (Nat.zero_le _), ← Nat.max_assoc, Nat.max_eq_left h]

theorem runsFrom_prefix (r : List DayPoint) :
    ∀ (b : List DayPoint) (c : Nat), (∀ e ∈ r, 0 < e.count) →
      c + r.length ≤ runsFrom (r ++ b) c := by
  induction r with
  | nil =>
    intro b c _
    simpa using runsFrom_ge b c
  | cons x r' ih =>
    intro b c hall
    have hx : x.count > 0 := hall x (by simp)
    rw [List.cons_append, runsFrom, if_pos hx]
    have h2 := ih b (c + 1) (fun e he => hall e (by simp [he]))
    simp only [List.length_cons]
    omega

theorem runsFrom_decomp_le (a : List DayPoint) :
    ∀ (r b : List DayPoint) (c : Nat), (∀ e ∈ r, 0 < e.count) →
      r.length ≤ runsFrom (a ++ r ++ b) c := by
  induction a with
  | nil =>
    intro r b c hall
    have h := runsFrom_prefix r b c hall
    rw [List.nil_append]
    omega
  | cons x a' ih =>
    intro r b c hall
    by_cases hx : x.count > 0
    · rw [List.cons_append, List.cons_append, runsFrom, if_pos hx]
      have := ih r b (c + 1) hall
      simpa [List.append_assoc] using this
    · rw [List.cons_append, List.cons_append, runsFrom, if_neg hx]
      have := ih r b 0 hall
      have h2 : runsFrom (a' ++ (r ++ b)) 0 ≤ max c (runsFrom (a' ++ (r ++ b)) 0) :=
        Nat.le_max_right _ _
      have h3 : r.length ≤ runsFrom (a' ++ (r ++ b)) 0 := by
        simpa [List.append_assoc] using this
      omega

theorem runsFrom_exists (l : List DayPoint) :
    ∀ c, (∃ r b, l = r ++ b ∧ (∀ e ∈ r, 0 < e.count) ∧ runsFrom l c = c + r.length) ∨
      (∃ a r b, l = a ++ r ++ b ∧ (∀ e ∈ r, 0 < e.count) ∧ runsFrom l c = r.length) := by
  induction l with
  | nil =>
    intro c
    exact Or.inl ⟨[], [], by simp, by simp, by simp [runsFrom]⟩
  | cons p rest ih =>
    intro c
    by_cases hp : p.count > 0
    · rcases ih (c + 1) with ⟨r, b, hl, hall, hv⟩ | ⟨a, r, b, hl, hall, hv⟩
      · refine Or.inl ⟨p :: r, b, by simp [hl], ?_, ?_⟩
        · intro e he
          rcases List.mem_cons.mp he with rfl | he'
          · exact hp
          · exact hall e he'
        · rw [runsFrom, if_pos hp, hv]
          simp only [List.length_cons]
          omega
      · refine Or.inr ⟨p :: a, r, b, by simp [hl], hall, ?_⟩
        rw [runsFrom, if_pos hp]
        exact hv
    · rcases Nat.le_total (runsFrom rest 0) c with hle | hle
      · refine Or.inl ⟨[], p :: rest, by simp, by simp, ?_⟩
        rw [runsFrom, if_neg hp, Nat.max_eq_left hle]
        simp
      · rcases ih 0 with ⟨r, b, hl, hall, hv⟩ | ⟨a, r, b, hl, hall, hv⟩
        · refine Or.inr ⟨[p], r, b, by simp [hl], hall, ?_⟩
          rw [runsFrom, if_neg hp, Nat.max_eq_right hle, hv]
          omega
        · refine Or.inr ⟨p :: a, r, b, by simp [hl], hall, ?_⟩
          rw [runsFrom, if_neg hp, Nat.max_eq_right hle, hv]

theorem currentLoop_eq (l : List DayPoint) :
    currentLoop l = (l.takeWhile (fun p => decide (0 < p.count))).length := by
  induction l with
  | nil => simp [currentLoop]
  | cons p rest ih =>
    by_cases hp : p.count > 0
    · simp [currentLoop, List.takeWhile_cons, hp, ih]
    · simp [currentLoop, List.takeWhile_cons, hp]

/-- C8 (confirmed): `compute_streaks` returns `(total, current_streak,
longest_streak)` where `total` is the sum of all counts, `current_streak`
counts the consecutive positive-count entries ending at the last entry
(walking backward, stopping at the first zero), and `longest_streak` is the
length of the longest run of consecutive positive-count entries anywhere
(no longer run exists, and a run of exactly that length exists); the empty
series yields `(0, 0, 0)`; the spec's two examples compute as stated. -/
theorem C8_compute_streaks :
    (∀ points : List DayPoint,
        (compute_streaks points).1 = (points.map DayPoint.count).sum ∧
        (compute_streaks points).2.1 =
          (points.reverse.takeWhile (fun p => decide (0 < p.count))).length ∧
        (∀ a r b, points = a ++ r ++ b → (∀ e ∈ r, 0 < e.count) →
          r.length ≤ (compute_streaks points).2.2) ∧
        (∃ a r b, points = a ++ r ++ b ∧ (∀ e ∈ r, 0 < e.count) ∧
          r.length = (compute_streaks points).2.2)) ∧
      compute_streaks [] = (0, 0, 0) ∧
      compute_streaks [⟨0, 1⟩, ⟨1, 1⟩, ⟨2, 0⟩, ⟨3, 1⟩, ⟨4, 1⟩, ⟨5, 1⟩] = (5, 3, 3) ∧
      (compute_streaks [⟨0, 1⟩, ⟨1, 0⟩, ⟨2, 0⟩]).2.1 = 0 ∧
      (compute_streaks [⟨0, 1⟩, ⟨1, 0⟩, ⟨2, 0⟩]).2.2 = 1 := by
  refine ⟨?_, rfl, rfl, rfl, rfl⟩
  intro points
  cases hp : points with
  | nil =>
    refine ⟨rfl, rfl, ?_, ⟨[], [], [], by simp, by simp, rfl⟩⟩
    intro a r b habs hall
    have hrb : a ++ r ++ b = [] := habs.symm
    have : r = [] := by
      rcases List.append_eq_nil.mp hrb with ⟨h1, _⟩
      exact (List.append_eq_nil.mp h1).2
    simp [this, compute_streaks]
  | cons q rest =>
    have hlong : (compute_streaks (q :: rest)).2.2 = runsFrom (q :: rest) 0 := by
      show longestLoop (q :: rest) 0 0 = _
      rw [longestLoop_eq (q :: rest) 0 0 (le_refl 0)]
      simp
    refine ⟨rfl, ?_, ?_, ?_⟩
    · show currentLoop (q :: rest).reverse = _
      rw [currentLoop_eq]
    · intro a r b hdecomp hall
      rw [hlong, hdecomp]
      exact runsFrom_decomp_le a r b 0 hall
    · rcases runsFrom_exists (q :: rest) 0 with ⟨r, b, hl, hall, hv⟩ | ⟨a, r, b, hl, hall, hv⟩
      · exact ⟨[], r, b, by simpa using hl, hall, by rw [hlong, hv]; omega⟩
      · exact ⟨a, r, b, hl, hall, by rw [hlong, hv]⟩

/-- Witness for C8: the total of a one-day series via the general theorem. -/
theorem C8_compute_streaks_witness : (compute_streaks [⟨0, 2⟩]).1 = 2 := by
  have h := (C8_compute_streaks.1 [⟨0, 2⟩]).1
  simpa using h

/-! ## Claim theorems: language-row folding -/

theorem orderedInsert_filter_key (x : String × Int) (l : List (String × Int)) (v : Int) :
    (List.orderedInsert langDescRel x l).filter (fun e => decide (e.2 = v)) =
      if x.2 = v then x :: l.filter (fun e => decide (e.2 = v))
      else l.filter (fun e => decide (e.2 = v)) := by
  induction l with
  | nil =>
    by_cases hx : x.2 = v <;> simp [List.orderedInsert, List.filter, hx]
  | cons y l' ih =>
    by_cases hr : langDescRel x y
    · rw [List.orderedInsert, if_pos hr]
      by_cases hx : x.2 = v <;> simp [List.filter_cons, hx]
    · rw [List.orderedInsert, if_neg hr]
      have hlt : x.2 < y.2 := not_le.mp hr
      by_cases hx : x.2 = v
      · have hy : ¬ (y.2 = v) := by omega
        simp [List.filter_cons, hy, ih, hx]
      · simp [List.filter_cons, ih, hx]

theorem insertionSort_filter_key (l : List (String × Int)) (v : Int) :
    (List.insertionSort langDescRel l).filter (fun e => decide (e.2 = v)) =
      l.filter (fun e => decide (e.2 = v)) := by
  induction l with
  | nil => rfl
  | cons x l' ih =>
    rw [List.insertionSort, orderedInsert_filter_key]
    by_cases hx : x.2 = v <;> simp [List.filter_cons, hx, ih]

/-- C9 (confirmed): the rendered language rows arise from the
(post-allow-listing) byte mapping by a stable descending sort — the rows are
a permutation of the input sorted by byte count descending, and for every
byte value the rows with that value keep their original encounter order —
followed, whenever more than 8 distinct languages remain, by folding the
9th-and-beyond rows into exactly one synthetic "Other" row whose byte count
is their sum; the total byte mass over all rows is unchanged by sorting and
folding. -/
theorem C9_lang_rows (items : List (String × Int)) :
    ∃ s : List (String × Int),
      s.Perm items ∧ List.Sorted langDescRel s ∧
      (∀ v : Int, s.filter (fun e => decide (e.2 = v)) =
        items.filter (fun e => decide (e.2 = v))) ∧
      langRows items =
        (if s.length > 8 then
          s.take 8 ++ [("Other", ((s.drop 8).map Prod.snd).sum)]
        else s) ∧
      ((langRows items).map Prod.snd).sum = (items.map Prod.snd).sum := by
  refine ⟨List.insertionSort langDescRel items, List.perm_insertionSort _ _,
    List.sorted_insertionSort _ _, insertionSort_filter_key items, rfl, ?_⟩
  have hperm : ((List.insertionSort langDescRel items).map Prod.snd).sum =
      (items.map Prod.snd).sum :=
    ((List.perm_insertionSort langDescRel items).map Prod.snd).sum_eq
  have hrows : langRows items =
      if (List.insertionSort langDescRel items).length > 8 then
        (List.insertionSort langDescRel items).take 8 ++
          [("Other", (((List.insertionSort langDescRel items).drop 8).map Prod.snd).sum)]
      else List.insertionSort langDescRel items := rfl
  rw [hrows]
  by_cases hlen : (List.insertionSort langDescRel items).length > 8
  · rw [if_pos hlen, List.map_append, List.sum_append]
    simp only [List.map_cons, List.map_nil, List.sum_cons, List.sum_nil]
    rw [← hperm]
    conv_rhs => rw [← List.take_append_drop 8 (List.insertionSort langDescRel items)]
    rw [List.map_append, List.sum_append]
    omega
  · rw [if_neg hlen]
    exact hperm

/-- Witness for C9: total byte mass is conserved on a concrete mapping. -/
theorem C9_lang_rows_witness :
    ((langRows [("a", 3), ("b", 7)]).map Prod.snd).sum = 10 := by
  obtain ⟨s, _, _, _, _, hsum⟩ := C9_lang_rows [("a", 3), ("b", 7)]
  rw [hsum]
  decide

/-! ## Claim theorems: aggregation invariant -/

theorem bucket_mem (h : Nat) :
    bucket_time_of_day h = "Morning" ∨ bucket_time_of_day h = "Day" ∨
      bucket_time_of_day h = "Evening" ∨ bucket_time_of_day h = "Night" := by
  rw [show bucket_time_of_day h =
      (if 6 ≤ h ∧ h < 12 then "Morning"
       else if 12 ≤ h ∧ h < 18 then "Day"
       else if 18 ≤ h ∧ h < 22 then "Evening"
       else if h ≥ 22 ∨ h < 6 then "Night" else "Night") from rfl]
  split_ifs <;>
    first
      | exact Or.inl rfl
      | exact Or.inr (Or.inl rfl)
      | exact Or.inr (Or.inr (Or.inl rfl))
      | exact Or.inr (Or.inr (Or.inr rfl))

theorem bump_self (f : String → Nat) (k : String) : bump f k k = f k + 1 := by
  simp [bump]

theorem bump_other (f : String → Nat) (k x : String) (h : x ≠ k) : bump f k x = f x := by
  simp [bump, h]

theorem sum_map_bump (f : String → Nat) (k : String) :
    ∀ (keys : List String), k ∈ keys → keys.Nodup →
      (keys.map (bump f k)).sum = (keys.map f).sum + 1 := by
  intro keys
  induction keys with
  | nil => intro hk; simp at hk
  | cons y rest ih =>
    intro hk hnd
    rcases List.mem_cons.mp hk with rfl | hk'
    · have hni : ∀ x ∈ rest, bump f k x = f x := by
        intro x hx
        exact bump_other f k x (fun hxy => (List.nodup_cons.mp hnd).1 (hxy ▸ hx))
      rw [List.map_cons, List.map_cons, List.sum_cons, List.sum_cons, bump_self,
        List.map_congr_left hni]
      omega
    · have hyk : y ≠ k := by
        intro hyk
        exact (List.nodup_cons.mp hnd).1 (hyk ▸ hk')
      rw [List.map_cons, List.map_cons, List.sum_cons, List.sum_cons,
        bump_other f k y hyk, ih hk' (List.nodup_cons.mp hnd).2]
      omega

theorem todSum_eq (f : String → Nat) :
    todSum f = ((["Morning", "Day", "Evening", "Night"] : List String).map f).sum := by
  simp only [todSum, List.map_cons, List.map_nil, List.sum_cons, List.sum_nil]
  omega

theorem weekdaySum_eq (f : String → Nat) : weekdaySum f = (WEEKDAYS.map f).sum := by
  simp only [weekdaySum, WEEKDAYS, List.map_cons, List.map_nil, List.sum_cons,
    List.sum_nil]
  omega

theorem todSum_bump (f : String → Nat) (k : String)
    (hk : k = "Morning" ∨ k = "Day" ∨ k = "Evening" ∨ k = "Night") :
    todSum (bump f k) = todSum f + 1 := by
  rw [todSum_eq, todSum_eq, sum_map_bump f k _ (by rcases hk with rfl | rfl | rfl | rfl <;> decide) (by decide)]

theorem weekdaySum_bump (f : String → Nat) (i : Fin 7) :
    weekdaySum (bump f (WEEKDAYS.get i)) = weekdaySum f + 1 := by
  have hmem : WEEKDAYS.get i ∈ WEEKDAYS := by
    have h2 := List.get_mem WEEKDAYS i.1 i.2
    simp only [Fin.eta] at h2
    exact h2
  rw [weekdaySum_eq, weekdaySum_eq, sum_map_bump f (WEEKDAYS.get i) WEEKDAYS hmem (by decide)]

theorem processCommit_inv (cfg : AggCfg) (localize : LocalizeFn)
    (hloc : ∀ s, (localize s).isSome) (st : AggState) (c : PyCommit)
    (h : AggInv st) :
    AggInv (processCommit cfg localize st c).1 ∧
      (processCommit cfg localize st c).2 = false := by
  obtain ⟨h1, h2, h3⟩ := h
  cases hsha : strVal c.sha with
  | none =>
    simp only [processCommit, hsha]
    exact ⟨⟨h1, h2, h3⟩, by simp⟩
  | some sha =>
    cases hb : st.seen.contains sha with
    | true =>
      simp only [processCommit, hsha, hb, if_true]
      exact ⟨⟨h1, h2, h3⟩, by simp⟩
    | false =>
      cases hm : cfg.excludeMergeCommits && is_merge_commit c with
      | true =>
        simp only [processCommit, hsha, hb, hm, Bool.false_eq_true, if_false, if_true]
        exact ⟨⟨h1, h2, h3⟩, by simp⟩
      | false =>
        cases hd : strVal c.date with
        | none =>
          simp only [processCommit, hsha, hb, hm, Bool.false_eq_true, if_false, hd]
          exact ⟨⟨h1, h2, h3⟩, by simp⟩
        | some ds =>
          cases hv : localize ds with
          | none =>
            have hcontra := hloc ds
            rw [hv] at hcontra
            simp at hcontra
          | some hw =>
            obtain ⟨hour, wd⟩ := hw
            simp only [processCommit, hsha, hb, hm, Bool.false_eq_true, if_false, hd, hv]
            refine ⟨⟨?_, ?_, ?_⟩, by simp⟩
            · show st.total + 1 = todSum (bump st.tod (bucket_time_of_day hour))
              rw [todSum_bump _ _ (bucket_mem hour)]
              omega
            · show st.total + 1 = weekdaySum (bump st.weekday (WEEKDAYS.get wd))
              rw [weekdaySum_bump]
              omega
            · show st.total + 1 = (sha :: st.seen).length
              simp only [List.length_cons]
              omega

theorem processPage_inv (cfg : AggCfg) (localize : LocalizeFn)
    (hloc : ∀ s, (localize s).isSome) :
    ∀ (page : List PyCommit) (st : AggState), AggInv st →
      AggInv (processPage cfg localize st page).1 ∧
        (processPage cfg localize st page).2 = false := by
  intro page
  induction page with
  | nil => intro st h; exact ⟨h, rfl⟩
  | cons c rest ih =>
    intro st h
    have hc := processCommit_inv cfg localize hloc st c h
    cases hpc : processCommit cfg localize st c with
    | mk st' fl =>
      rw [hpc] at hc
      obtain ⟨hinv', hfl⟩ := hc
      simp only at hfl
      subst hfl
      simp only [processPage, hpc]
      exact ih st' hinv'

theorem processPages_inv (cfg : AggCfg) (localize : LocalizeFn)
    (hloc : ∀ s, (localize s).isSome) :
    ∀ (pages : List (List PyCommit)) (st : AggState), AggInv st →
      AggInv (processPages cfg localize st pages) := by
  intro pages
  induction pages with
  | nil => intro st h; exact h
  | cons page rest ih =>
    intro st h
    have hp := processPage_inv cfg localize hloc page st h
    cases hpp : processPage cfg localize st page with
    | mk st' fl =>
      rw [hpp] at hp
      obtain ⟨hinv', hfl⟩ := hp
      simp only at hfl
      subst hfl
      simp only [processPages, hpp]
      exact ih st' hinv'

theorem processRepo_inv (cfg : AggCfg) (localize : LocalizeFn)
    (hloc : ∀ s, (localize s).isSome) (st : AggState) (r : PyRepo)
    (h : AggInv st) : AggInv (processRepo cfg localize st r) := by
  obtain ⟨h1, h2, h3⟩ := h
  simp only [processRepo]
  cases hf : cfg.excludeForks && r.fork with
  | true => simp only [hf, if_true]; exact ⟨h1, h2, h3⟩
  | false =>
    simp only [hf, Bool.false_eq_true, if_false]
    cases ho : strVal r.owner with
    | none => exact ⟨h1, h2, h3⟩
    | some o =>
      cases hn : strVal r.name with
      | none => exact ⟨h1, h2, h3⟩
      | some n =>
        cases hl : r.langs with
        | none => exact processPages_inv cfg localize hloc r.commitPages st ⟨h1, h2, h3⟩
        | some ls =>
          exact processPages_inv cfg localize hloc r.commitPages _ ⟨h1, h2, h3⟩

theorem aggregate_inv_aux (cfg : AggCfg) (localize : LocalizeFn)
    (hloc : ∀ s, (localize s).isSome) :
    ∀ (repos : List PyRepo) (st : AggState), AggInv st →
      AggInv (repos.foldl (processRepo cfg localize) st) := by
  intro repos
  induction repos with
  | nil => intro st h; exact h
  | cons r rest ih =>
    intro st h
    simp only [List.foldl_cons]
    exact ih _ (processRepo_inv cfg localize hloc st r h)

/-- C5 (corrected): provided the date conversion (the external
`strptime`/`astimezone` capability) succeeds on every date string, after
`aggregate` completes `total_commits` equals the sum over the four
time-of-day buckets, equals the sum over the seven weekday buckets, and
equals the size of the seen-sha deduplication set. -/
theorem C5_aggregate_invariant (cfg : AggCfg) (localize : LocalizeFn)
    (repos : List PyRepo) (hloc : ∀ s, (localize s).isSome) :
    (aggregate cfg localize repos).total = todSum (aggregate cfg localize repos).tod ∧
      (aggregate cfg localize repos).total =
        weekdaySum (aggregate cfg localize repos).weekday ∧
      (aggregate cfg localize repos).total =
        (aggregate cfg localize repos).seen.length :=
  aggregate_inv_aux cfg localize hloc repos initAggState ⟨rfl, rfl, rfl⟩

/-- Witness for C5: a repository whose commit pages repeat a sha across
pages; the invariant holds with a total-succeeding conversion. -/
theorem C5_aggregate_invariant_witness :
    (aggregate ⟨false, true⟩ locW [repoW]).total =
        todSum (aggregate ⟨false, true⟩ locW [repoW]).tod ∧
      (aggregate ⟨false, true⟩ locW [repoW]).total =
        weekdaySum (aggregate ⟨false, true⟩ locW [repoW]).weekday ∧
      (aggregate ⟨false, true⟩ locW [repoW]).total =
        (aggregate ⟨false, true⟩ locW [repoW]).seen.length :=
  C5_aggregate_invariant ⟨false, true⟩ locW [repoW] (fun _ => rfl)

/-- C5 counterexample: a commit whose sha is marked seen and whose
malformed author date then raises inside the per-repository `try` block
leaves the seen-sha set one element larger than `total_commits`, because
`aggregate` adds the sha to `seen_shas` before parsing the timestamp. -/
theorem C5_counterexample :
    (aggregate ⟨false, false⟩ locCx [repoCx]).total = 0 ∧
      (aggregate ⟨false, false⟩ locCx [repoCx]).seen.length = 1 :=
  ⟨rfl, rfl⟩

/-! ## Claim theorems: daily series fill -/

theorem mem_intRange {s d : Int} {n : Nat} :
    d ∈ intRange s n ↔ s ≤ d ∧ d < s + n := by
  simp only [intRange, List.mem_map, List.mem_range]
  constructor
  · rintro ⟨i, hi, rfl⟩
    omega
  · rintro ⟨h1, h2⟩
    exact ⟨(d - s).toNat, by omega, by omega⟩

theorem intRange_succ (s : Int) (n : Nat) :
    intRange s (n + 1) = s :: intRange (s + 1) n := by
  rw [intRange, List.range_succ_eq_map, List.map_cons, List.map_map]
  congr 1
  · simp
  · apply List.map_congr_left
    intro i _
    simp only [Function.comp_apply, intRange]
    push_cast
    ring

theorem find?_day_unique {l : List DayPoint} {e : DayPoint} {d : Int}
    (hnd : (l.map DayPoint.day).Nodup) (he : e ∈ l) (hd : e.day = d) :
    l.find? (fun x => x.day == d) = some e := by
  induction l with
  | nil => simp at he
  | cons y rest ih =>
    rw [List.map_cons, List.nodup_cons] at hnd
    rcases List.mem_cons.mp he with rfl | he'
    · rw [List.find?_cons_of_pos _ (by simp [hd])]
    · have hyd : y.day ≠ d := by
        intro hyd
        exact hnd.1 (hyd ▸ hd ▸ List.mem_map_of_mem DayPoint.day he')
      rw [List.find?_cons_of_neg _ (by simp [hyd])]
      exact ih hnd.2 he'

theorem fillWalk_spec :
    ∀ (n : Nat) (wanted : List DayPoint) (cur : Int),
      List.Pairwise (fun a b => a.day < b.day) wanted →
      (∀ e ∈ wanted, cur ≤ e.day ∧ e.day < cur + n) →
      fillWalk wanted cur n =
        (intRange cur n).map (fun d => ⟨d, lookupCount wanted d⟩) := by
  intro n
  induction n with
  | zero =>
    intro wanted cur _ _
    simp [fillWalk, intRange]
  | succ n ih =>
    intro wanted cur hpw hbd
    cases wanted with
    | nil =>
      rw [fillWalk, intRange_succ, List.map_cons,
        ih [] (cur + 1) List.Pairwise.nil (by simp)]
      rfl
    | cons w rest =>
      have hpw' := List.pairwise_cons.mp hpw
      by_cases hw : w.day = cur
      · rw [fillWalk, if_pos hw, intRange_succ, List.map_cons]
        have hlook : lookupCount (w :: rest) cur = w.count := by
          rw [lookupCount, List.find?_cons_of_pos _ (by simp [hw])]
          rfl
        have hbounds' : ∀ e ∈ rest, cur + 1 ≤ e.day ∧ e.day < (cur + 1) + n := by
          intro e he
          have h1 := hpw'.1 e he
          have h2 := hbd e (List.mem_cons_of_mem w he)
          constructor
          · omega
          · omega
        rw [ih rest (cur + 1) hpw'.2 hbounds']
        congr 1
        · rw [hlook]
          cases w
          simp only at hw
          simp [hw]
        · apply List.map_congr_left
          intro d hd
          have hd1 := (mem_intRange.mp hd).1
          have hlk : lookupCount (w :: rest) d = lookupCount rest d := by
            rw [lookupCount, lookupCount,
              List.find?_cons_of_neg _ (by simp; omega)]
          rw [hlk]
      · have hwge : cur + 1 ≤ w.day := by
          have h1 := (hbd w (List.mem_cons_self w rest)).1
          omega
        have hbounds'' : ∀ e ∈ (w :: rest), cur + 1 ≤ e.day ∧ e.day < (cur + 1) + n := by
          intro e he
          have h2 := hbd e he
          rcases List.mem_cons.mp he with rfl | he'
          · exact ⟨hwge, by omega⟩
          · have h1 := hpw'.1 e he'
            exact ⟨by omega, by omega⟩
        have hlook0 : lookupCount (w :: rest) cur = 0 := by
          rw [lookupCount, List.find?_eq_none.mpr ?_]
          · rfl
          · intro x hx
            rcases List.mem_cons.mp hx with rfl | hx'
            · simp
              omega
            · have h1 := hpw'.1 x hx'
              simp
              omega
        rw [fillWalk, if_neg hw, intRange_succ, List.map_cons,
          ih (w :: rest) (cur + 1) hpw hbounds'', hlook0]

/-- C7 (corrected): provided the flattened calendar input contains at most
one entry per calendar day, the built series has exactly one `DayPoint` per
calendar day of the inclusive window `[fromDay, toDay]` (so its length is
the number of days in the window), in ascending day order, where a day
present in the input carries the input's count and a day absent from the
input is synthesized with count 0. -/
theorem C7_daily_series (weeks : List (List RawDay)) (fromDay toDay : Int)
    (hnd : ((flattenWeeks weeks).map DayPoint.day).Nodup) :
    buildDailySeries weeks fromDay toDay =
      (intRange fromDay (toDay + 1 - fromDay).toNat).map
        (fun d => ⟨d, lookupCount (flattenWeeks weeks) d⟩) := by
  have hperm : List.Perm (List.insertionSort dayLeRel (flattenWeeks weeks))
      (flattenWeeks weeks) := List.perm_insertionSort _ _
  have hsort : List.Sorted dayLeRel (List.insertionSort dayLeRel (flattenWeeks weeks)) :=
    List.sorted_insertionSort _ _
  have hsub : List.Sublist
      ((List.insertionSort dayLeRel (flattenWeeks weeks)).filter
        (fun p => fromDay ≤ p.day && p.day ≤ toDay))
      (List.insertionSort dayLeRel (flattenWeeks weeks)) := List.filter_sublist _
  have hpw_le : List.Pairwise dayLeRel
      ((List.insertionSort dayLeRel (flattenWeeks weeks)).filter
        (fun p => fromDay ≤ p.day && p.day ≤ toDay)) := hsort.sublist hsub
  have hnd_sorted : ((List.insertionSort dayLeRel (flattenWeeks weeks)).map
      DayPoint.day).Nodup := ((hperm.map DayPoint.day).nodup_iff).mpr hnd
  have hnd_wanted : (((List.insertionSort dayLeRel (flattenWeeks weeks)).filter
      (fun p => fromDay ≤ p.day && p.day ≤ toDay)).map DayPoint.day).Nodup :=
    hnd_sorted.sublist (hsub.map DayPoint.day)
  have hpw_lt : List.Pairwise (fun a b => a.day < b.day)
      ((List.insertionSort dayLeRel (flattenWeeks weeks)).filter
        (fun p => fromDay ≤ p.day && p.day ≤ toDay)) := by
    have hne := List.pairwise_map.mp hnd_wanted
    exact (hpw_le.and hne).imp (fun h => lt_of_le_of_ne h.1 h.2)
  have hbounds : ∀ e ∈ (List.insertionSort dayLeRel (flattenWeeks weeks)).filter
      (fun p => fromDay ≤ p.day && p.day ≤ toDay),
      fromDay ≤ e.day ∧ e.day < fromDay + ((toDay + 1 - fromDay).toNat : Int) := by
    intro e he
    have hp := (List.mem_filter.mp he).2
    simp only [Bool.and_eq_true, decide_eq_true_eq] at hp
    omega
  have hbuild : buildDailySeries weeks fromDay toDay =
      fillWalk ((List.insertionSort dayLeRel (flattenWeeks weeks)).filter
        (fun p => fromDay ≤ p.day && p.day ≤ toDay)) fromDay
        (toDay + 1 - fromDay).toNat := rfl
  rw [hbuild, fillWalk_spec _ _ _ hpw_lt hbounds]
  apply List.map_congr_left
  intro d hd
  obtain ⟨hd1, hd2⟩ := mem_intRange.mp hd
  have hdt : d ≤ toDay := by omega
  congr 1
  cases hfind : (flattenWeeks weeks).find? (fun x => x.day == d) with
  | some e =>
    have hed : e.day = d := by
      have hpe := List.find?_some hfind
      simpa using hpe
    have hemem : e ∈ flattenWeeks weeks := List.mem_of_find?_eq_some hfind
    have hewanted : e ∈ (List.insertionSort dayLeRel (flattenWeeks weeks)).filter
        (fun p => fromDay ≤ p.day && p.day ≤ toDay) := by
      rw [List.mem_filter]
      refine ⟨hperm.mem_iff.mpr hemem, ?_⟩
      simp only [Bool.and_eq_true, decide_eq_true_eq, hed]
      omega
    have hfw := find?_day_unique hnd_wanted hewanted hed
    rw [lookupCount, lookupCount, hfind, hfw]
  | none =>
    have hnone : ((List.insertionSort dayLeRel (flattenWeeks weeks)).filter
        (fun p => fromDay ≤ p.day && p.day ≤ toDay)).find?
        (fun x => x.day == d) = none := by
      rw [List.find?_eq_none] at hfind ⊢
      intro x hx
      exact hfind x (hperm.mem_iff.mp (List.mem_filter.mp hx).1)
    rw [lookupCount, lookupCount, hfind, hnone]

/-- Witness for C7: a five-day window with entries on days 1 and 3 (one
entry lacking a date is skipped); the gaps are zero-filled. -/
theorem C7_daily_series_witness :
    buildDailySeries [[⟨some 3, 7⟩, ⟨none, 9⟩, ⟨some 1, 4⟩]] 1 5 =
      [⟨1, 4⟩, ⟨2, 0⟩, ⟨3, 7⟩, ⟨4, 0⟩, ⟨5, 0⟩] := by
  rw [C7_daily_series [[⟨some 3, 7⟩, ⟨none, 9⟩, ⟨some 1, 4⟩]] 1 5 (by decide)]
  rfl

/-- C7 counterexample: an input with two entries for day 1 makes the walk's
cursor pass the duplicate, so the later day 2 — present in the input with
count 9 — is synthesized as zero instead of carrying its count. -/
theorem C7_counterexample :
    buildDailySeries [[⟨some 1, 5⟩, ⟨some 1, 7⟩, ⟨some 2, 9⟩]] 1 2 =
        [⟨1, 5⟩, ⟨2, 0⟩] ∧
      DayPoint.mk 2 9 ∉ buildDailySeries [[⟨some 1, 5⟩, ⟨some 1, 7⟩, ⟨some 2, 9⟩]] 1 2 :=
  ⟨rfl, by decide⟩

end Gh
